import Mathlib

/-
Verification of the core text-processing and allocation logic of the
cert-exam-gen repository (scripts/question_generator.py and
scripts/question_generator_gpt4o.py), as a shallow embedding.

Strings are modelled as Lean `String`/`List Char`; Python ints as `Int`/`Nat`;
Python floats as exact rationals `Rat` (the idealized arithmetic the spec's
numerical statements speak about); Python dicts with string keys as
association lists in insertion order.  Regular-expression operations of the
source are embedded as executable character-list scanners that mirror the
leftmost, greedy-with-backtracking semantics of Python `re` for exactly the
patterns the source uses.
-/

namespace PyStr

/-- Python's `\s` (whitespace) class, restricted to the ASCII range that the
repository's data exercises. -/
def pyWS (c : Char) : Bool :=
  c = ' ' || c = '\t' || c = '\n' || c = '\r' || c = '\x0b' || c = '\x0c'

/-- ASCII lower-casing, as Python `str.lower` acts on ASCII. -/
def lowCh (c : Char) : Char := c.toLower

/-- Python `\w` (word character): ASCII alphanumerics, underscore, and Hangul
syllables (the only non-Latin word characters occurring in this repository's
data). -/
def isWordChar (c : Char) : Bool :=
  c.isAlphanum || c = '_' || (0xAC00 ≤ c.toNat && c.toNat ≤ 0xD7A3)

/-- Python `str.strip()`: drop leading whitespace. -/
def dropLeadWS (l : List Char) : List Char := l.dropWhile pyWS

/-- Python `str.rstrip()`: drop trailing whitespace. -/
def dropTrailWS (l : List Char) : List Char := ((l.reverse).dropWhile pyWS).reverse

/-- Python `str.strip()` on a character list. -/
def pyStrip (l : List Char) : List Char := dropTrailWS (dropLeadWS l)

/-- Python `str.strip("\n")`: drop newline characters from both ends only. -/
def stripNl (l : List Char) : List Char :=
  ((l.dropWhile (· = '\n')).reverse.dropWhile (· = '\n')).reverse

/-- Non-overlapping substring count, Python `str.count`. -/
def countSub (pat : List Char) : Nat → List Char → Nat
  | 0, _ => 0
  | _, [] => if pat = [] then 1 else 0
  | f + 1, s@(_ :: t) =>
    if pat ≠ [] ∧ pat.isPrefixOf s then 1 + countSub pat f (s.drop pat.length)
    else countSub pat f t

/-- Python `pat in s` (substring containment). -/
def containsSub (pat : List Char) : List Char → Bool
  | [] => pat.isPrefixOf []
  | s@(_ :: t) => pat.isPrefixOf s || containsSub pat t

end PyStr

namespace QGen

/-- Truncation toward zero, Python `int(x)` on a float/rational. -/
def pyInt (q : ℚ) : ℤ := Int.tdiv q.num q.den

/-- Python `max(a, b)` on ints (kernel-reducible). -/
def pyMax (a b : ℤ) : ℤ := if a < b then b else a

/-- Python `min(a, b)` on ints (kernel-reducible). -/
def pyMin (a b : ℤ) : ℤ := if b < a then b else a

theorem le_pyMax_left (a b : ℤ) : a ≤ pyMax a b := by
  unfold pyMax; split <;> omega

theorem pyMin_le_right (a b : ℤ) : pyMin a b ≤ b := by
  unfold pyMin; split <;> omega

theorem le_pyMin (a b c : ℤ) (h1 : a ≤ b) (h2 : a ≤ c) : a ≤ pyMin b c := by
  unfold pyMin; split <;> omega

/-- Stable insertion of one (category, weight) pair into a weight-descending
list: the inserted pair (originally earlier) goes before equal weights, as
Python's stable `sorted(..., key=value, reverse=True)` keeps earlier entries
of equal weight first. -/
def insertDesc (p : String × ℚ) : List (String × ℚ) → List (String × ℚ)
  | [] => [p]
  | q :: t => if p.2 < q.2 then q :: insertDesc p t else p :: q :: t

/-- `sorted(ratios.items(), key=lambda x: x[1], reverse=True)` (stable). -/
def sortDesc : List (String × ℚ) → List (String × ℚ)
  | [] => []
  | p :: t => insertDesc p (sortDesc t)

/-- The allocation walk of `distribute_questions` over the sorted items:
every category but the last gets `min(max(1, int(n*r)), left - remaining)`
and decrements the budget; the last absorbs the remaining budget. -/
def alloc (n : ℤ) : ℤ → List (String × ℚ) → List (String × ℤ)
  | _, [] => []
  | left, [(t, _)] => [(t, left)]
  | left, (t, r) :: p :: rest =>
    let c := pyMin (pyMax 1 (pyInt ((n : ℚ) * r))) (left - (((p :: rest).length : ℕ) : ℤ))
    (t, c) :: alloc n (left - c) (p :: rest)

/-- `QuestionGenerator.distribute_questions` of
scripts/question_generator.py (lines 314-326); the identically-written
`distribute_questions` of scripts/question_generator_gpt4o.py
(lines 313-329) is embedded separately below as `Gpt4o.distribute_questions`. -/
def distribute_questions (n : ℤ) (rs : List (String × ℚ)) : List (String × ℤ) :=
  (alloc n n (sortDesc rs)).filter (fun p => decide (0 < p.2))

theorem insertDesc_perm (p : String × ℚ) (l : List (String × ℚ)) :
    (insertDesc p l).Perm (p :: l) := by
  induction l with
  | nil => simp [insertDesc]
  | cons q t ih =>
    by_cases h : p.2 < q.2
    · simp only [insertDesc, if_pos h]
      exact (ih.cons q).trans (List.Perm.swap p q t)
    · simp [insertDesc, if_neg h]

theorem sortDesc_perm (l : List (String × ℚ)) : (sortDesc l).Perm l := by
  induction l with
  | nil => simp [sortDesc]
  | cons p t ih => exact (insertDesc_perm p (sortDesc t)).trans (ih.cons p)

theorem alloc_sum (n : ℤ) :
    ∀ (l : List (String × ℚ)) (left : ℤ), l ≠ [] →
    ((alloc n left l).map Prod.snd).sum = left := by
  intro l
  induction l with
  | nil => intro left h; exact absurd rfl h
  | cons hd tl ih =>
    intro left _
    cases tl with
    | nil => simp [alloc]
    | cons hd2 tl2 =>
      obtain ⟨t, r⟩ := hd
      simp only [alloc, List.map_cons, List.sum_cons]
      rw [ih _ (by simp)]
      ring

theorem alloc_ge_one (n : ℤ) :
    ∀ (l : List (String × ℚ)) (left : ℤ), ((l.length : ℕ) : ℤ) ≤ left →
    ∀ p ∈ alloc n left l, 1 ≤ p.2 := by
  intro l
  induction l with
  | nil => intro left _ p hp; simp [alloc] at hp
  | cons hd tl ih =>
    intro left hlen p hp
    cases tl with
    | nil =>
      obtain ⟨t, r⟩ := hd
      simp only [alloc, List.mem_singleton] at hp
      subst hp
      simpa using hlen
    | cons hd2 tl2 =>
      obtain ⟨t, r⟩ := hd
      simp only [alloc, List.mem_cons] at hp
      have hlen' : (((hd2 :: tl2).length : ℕ) : ℤ) + 1 ≤ left := by
        simpa [List.length_cons, Nat.cast_add, add_comm] using hlen
      rcases hp with hp | hp
      · subst hp
        exact le_pyMin _ _ _ (le_pyMax_left _ _) (by linarith)
      · refine ih _ ?_ p hp
        have hc : pyMin (pyMax 1 (pyInt ((n : ℚ) * r)))
            (left - (((hd2 :: tl2).length : ℕ) : ℤ)) ≤
            left - (((hd2 :: tl2).length : ℕ) : ℤ) := pyMin_le_right _ _
        linarith

theorem alloc_keys (n : ℤ) :
    ∀ (l : List (String × ℚ)) (left : ℤ),
    (alloc n left l).map Prod.fst = l.map Prod.fst := by
  intro l
  induction l with
  | nil => intro left; simp [alloc]
  | cons hd tl ih =>
    intro left
    cases tl with
    | nil => obtain ⟨t, r⟩ := hd; simp [alloc]
    | cons hd2 tl2 =>
      obtain ⟨t, r⟩ := hd
      simp only [alloc, List.map_cons, ih]

end QGen

/-- C1 (counterexample): with total 1 and three categories, the counts
returned by `distribute_questions` sum to 2, not 1: the greedy pass assigns
the largest-weight category the clamp value -1, the filter then removes that
negative entry, and the surviving counts exceed the requested total. -/
theorem c1_counterexample :
    QGen.distribute_questions 1 [("a", (1 : ℚ)/2), ("b", (3 : ℚ)/10), ("c", (1 : ℚ)/5)]
      = [("b", 1), ("c", 1)] ∧
    ((QGen.distribute_questions 1
        [("a", (1 : ℚ)/2), ("b", (3 : ℚ)/10), ("c", (1 : ℚ)/5)]).map Prod.snd).sum = 2 ∧
    (2 : ℤ) ≠ 1 := by
  refine ⟨by with_unfolding_all decide, by with_unfolding_all decide, by decide⟩

/-- C1 (amended): for every total at least the number of categories of a
non-empty ratio mapping, the counts returned by `distribute_questions` sum to
exactly the total. -/
theorem c1_total_amended (n : ℤ) (rs : List (String × ℚ)) (h1 : rs ≠ [])
    (h2 : ((rs.length : ℕ) : ℤ) ≤ n) :
    ((QGen.distribute_questions n rs).map Prod.snd).sum = n := by
  have hperm := QGen.sortDesc_perm rs
  have hne : QGen.sortDesc rs ≠ [] := by
    intro h
    exact h1 (List.length_eq_zero.mp (by rw [← hperm.length_eq, h, List.length_nil]))
  have hlen : (((QGen.sortDesc rs).length : ℕ) : ℤ) ≤ n := by
    rw [hperm.length_eq]; exact h2
  have hall : ∀ p ∈ QGen.alloc n n (QGen.sortDesc rs), 1 ≤ p.2 :=
    QGen.alloc_ge_one n _ n hlen
  have hfilter : (QGen.alloc n n (QGen.sortDesc rs)).filter (fun p => decide (0 < p.2))
      = QGen.alloc n n (QGen.sortDesc rs) := by
    apply List.filter_eq_self.mpr
    intro a ha
    exact decide_eq_true (lt_of_lt_of_le zero_lt_one (hall a ha))
  unfold QGen.distribute_questions
  rw [hfilter]
  exact QGen.alloc_sum n _ n hne

theorem c1_total_witness :
    ((QGen.distribute_questions 3 [("a", (1 : ℚ)/2), ("b", (1 : ℚ)/2)]).map Prod.snd).sum = 3 :=
  c1_total_amended 3 [("a", (1 : ℚ)/2), ("b", (1 : ℚ)/2)] (by decide) (by with_unfolding_all decide)

/-- C7: every returned count of `distribute_questions` is positive (for any
total, in particular no returned count is negative or zero), and when the
total is at least the number of categories, every category of the ratio
mapping appears in the result with a count of at least 1. -/
theorem c7_lower_bound (n : ℤ) (rs : List (String × ℚ)) (_h1 : 1 ≤ n) :
    (∀ p ∈ QGen.distribute_questions n rs, 0 < p.2) ∧
    (((rs.length : ℕ) : ℤ) ≤ n →
      ∀ pr ∈ rs, ∃ c : ℤ, (pr.1, c) ∈ QGen.distribute_questions n rs ∧ 1 ≤ c) := by
  constructor
  · intro p hp
    unfold QGen.distribute_questions at hp
    exact of_decide_eq_true (List.mem_filter.mp hp).2
  · intro h2 pr hpr
    have hperm := QGen.sortDesc_perm rs
    have hlen : (((QGen.sortDesc rs).length : ℕ) : ℤ) ≤ n := by
      rw [hperm.length_eq]; exact h2
    have hall : ∀ p ∈ QGen.alloc n n (QGen.sortDesc rs), 1 ≤ p.2 :=
      QGen.alloc_ge_one n _ n hlen
    have hkey : pr.1 ∈ (QGen.alloc n n (QGen.sortDesc rs)).map Prod.fst := by
      rw [QGen.alloc_keys]
      exact List.mem_map_of_mem Prod.fst (hperm.mem_iff.mpr hpr)
    obtain ⟨q, hq, hq1⟩ := List.mem_map.mp hkey
    refine ⟨q.2, ?_, hall q hq⟩
    have hqpos : decide (0 < q.2) = true :=
      decide_eq_true (lt_of_lt_of_le zero_lt_one (hall q hq))
    have : (pr.1, q.2) = q := by
      rw [← hq1]
    rw [this]
    exact List.mem_filter_of_mem hq hqpos

theorem c7_witness :
    (0 : ℤ) < 1 ∧ ("a", (1 : ℤ)) ∈ QGen.distribute_questions 3 [("a", (1 : ℚ)/2), ("b", (1 : ℚ)/2)] :=
  ⟨(c7_lower_bound 3 [("a", (1 : ℚ)/2), ("b", (1 : ℚ)/2)] (by decide)).1 ("a", 1)
     (by with_unfolding_all decide),
   by with_unfolding_all decide⟩

namespace QGen

/-- The keyword table of `QuestionGenerator.analyze_question_types`
(scripts/question_generator.py lines 296-302). -/
def keys : List (String × List String) :=
  [("tree_analysis", ["트리", "Fan-In", "Fan-Out", "노드", "그래프"]),
   ("code_execution", ["Java", "public", "class", "main", "코드", "실행", "결과"]),
   ("algorithm_analysis", ["알고리즘", "복잡도", "Big-O", "시간복잡도"]),
   ("data_structure", ["스택", "큐", "배열", "리스트", "자료구조"]),
   ("diagram_matching", ["그림", "도식", "차트", "흐름도", "플로차트", "다이어그램"])]

/-- `text.count(w)` for one keyword. -/
def countStr (w text : String) : ℕ :=
  PyStr.countSub w.data (text.data.length + 1) text.data

/-- The per-category accumulated keyword count `counts[k]`. -/
def catCount (ws : List String) (text : String) : ℕ :=
  (ws.map (fun w => countStr w text)).sum

/-- The grand keyword total accumulated across all categories. -/
def keywordTotal (text : String) : ℕ :=
  (keys.map (fun kv => catCount kv.2 text)).sum

/-- `QuestionGenerator.analyze_question_types` of
scripts/question_generator.py (lines 294-312): keyword counts per category;
zero total falls back to the single default bucket; otherwise each category
gets `max(count/total, 0.05)`. -/
def analyze_question_types (text : String) : List (String × ℚ) :=
  if keywordTotal text = 0 then [("multiple_choice", 1)]
  else keys.map fun kv =>
    (kv.1, max ((catCount kv.2 text : ℚ) / (keywordTotal text : ℚ)) ((5 : ℚ)/100))

end QGen

namespace RegEng

/-- One atom of the regular-expression subset used by the repository's
patterns: a literal character, `.`, `\d`, `\s`, or a character range
`[lo-hi]`.  IGNORECASE call sites lower-case both text and pattern before
matching, which is equivalent for the ASCII letters involved. -/
inductive RAtom
  | lit (c : Char)
  | anyc
  | digit
  | ws
  | cls (lo hi : Char)

/-- An atom, taken once, or under `*`, or under `+`. -/
inductive RTok
  | once (a : RAtom)
  | star (a : RAtom)
  | plus (a : RAtom)

def atomMatch : RAtom → Char → Bool
  | .lit c, ch => c = ch
  | .anyc, ch => ch ≠ '\n'
  | .digit, ch => ch.isDigit
  | .ws, ch => PyStr.pyWS ch
  | .cls lo hi, ch => lo ≤ ch && ch ≤ hi

def escAtom (c : Char) : RAtom :=
  if c = 'd' then .digit else if c = 's' then .ws else .lit c

/-- Parse one of the source's pattern strings into the token list: handles
exactly the constructs those patterns use (`\(`, `\)`, `\?`, `\+`, `\d`,
`\s`, `.`, `[lo-hi]`, literals, with postfix `*`/`+`). -/
def parsePat : List Char → List RTok
  | [] => []
  | '\\' :: c :: '*' :: r => .star (escAtom c) :: parsePat r
  | '\\' :: c :: '+' :: r => .plus (escAtom c) :: parsePat r
  | '\\' :: c :: r => .once (escAtom c) :: parsePat r
  | '[' :: lo :: '-' :: hi :: ']' :: '*' :: r => .star (.cls lo hi) :: parsePat r
  | '[' :: lo :: '-' :: hi :: ']' :: '+' :: r => .plus (.cls lo hi) :: parsePat r
  | '[' :: lo :: '-' :: hi :: ']' :: r => .once (.cls lo hi) :: parsePat r
  | '.' :: '*' :: r => .star .anyc :: parsePat r
  | '.' :: '+' :: r => .plus .anyc :: parsePat r
  | '.' :: r => .once .anyc :: parsePat r
  | c :: '*' :: r => .star (.lit c) :: parsePat r
  | c :: '+' :: r => .plus (.lit c) :: parsePat r
  | c :: r => .once (.lit c) :: parsePat r

/-- Backtracking match at the start of `s`, in Python `re`'s preference
order (greedy quantifiers, longest repetition tried first); returns the
number of characters the first successful alternative consumes. -/
def reMatch : List RTok → List Char → Option Nat
  | [], _ => some 0
  | .once _ :: _, [] => none
  | .once a :: ts, c :: r => if atomMatch a c then (reMatch ts r).map (· + 1) else none
  | .star a :: ts, s =>
    let k := (s.takeWhile (atomMatch a)).length
    ((List.range (k + 1)).reverse).findSome? (fun j => (reMatch ts (s.drop j)).map (· + j))
  | .plus a :: ts, s =>
    let k := (s.takeWhile (atomMatch a)).length
    (((List.range k).reverse).map (· + 1)).findSome? (fun j => (reMatch ts (s.drop j)).map (· + j))

/-- `len(re.findall(pattern, text))`: scan left to right, count
non-overlapping matches, resume after each match (empty matches, which the
repository's patterns cannot produce, advance by one). -/
def countRe (ts : List RTok) : Nat → List Char → Nat
  | 0, _ => 0
  | _ + 1, [] => match reMatch ts [] with | some _ => 1 | none => 0
  | f + 1, s@(_ :: r) =>
    match reMatch ts s with
    | none => countRe ts f r
    | some 0 => 1 + countRe ts f r
    | some (l + 1) => 1 + countRe ts f (s.drop (l + 1))

/-- `len(re.findall(pat, text, re.IGNORECASE))`: IGNORECASE is realized by
lower-casing both the pattern and the text. -/
def findallCount (pat text : String) : ℕ :=
  countRe (parsePat (pat.data.map PyStr.lowCh)) (text.data.length + 1)
    (text.data.map PyStr.lowCh)

/-- `any`-position search (`re.search` truthiness) for a token list. -/
def searchRe (ts : List RTok) : List Char → Bool
  | [] => (reMatch ts []).isSome
  | s@(_ :: r) => (reMatch ts s).isSome || searchRe ts r

end RegEng

namespace Gpt4o

/-- `self.question_patterns` of scripts/question_generator_gpt4o.py
(lines 14-109). -/
def question_patterns : List (String × List String) :=
  [("multiple_choice",
    ["다음 중.*옳은 것은\\?",
     "[1-5]번.*정답은\\?",
     "①.*②.*③.*④",
     "\\(1\\).*\\(2\\).*\\(3\\).*\\(4\\)",
     "다음 중.*틀린 것은\\?",
     "요소.*중.*다음.*관계.*것은\\?"]),
   ("tree_analysis",
    ["트리.*구조.*나타낸다",
     "Fan-In.*Fan-Out.*얼마인가",
     "그래프.*구조.*분석",
     "노드.*관계.*분석",
     "트리.*Fan-In.*Fan-Out"]),
   ("code_execution",
    ["Java.*프로그램.*실행.*때.*결과는",
     "다음.*코드.*실행.*결과",
     "프로그램.*실행.*출력",
     "public.*class.*main.*결과",
     "코드.*실행.*결과.*얼마인가"]),
   ("algorithm_analysis",
    ["알고리즘.*복잡도.*분석",
     "시간복잡도.*공간복잡도",
     "Big-O.*표기법",
     "성능.*분석"]),
   ("data_structure",
    ["자료구조.*특징",
     "스택.*큐.*트리.*그래프",
     "배열.*리스트.*분석"]),
   ("fill_blank",
    ["다음 빈 칸에.*알맞은.*것은\\?",
     "빈칸에.*들어갈.*말은\\?",
     "\\(\\s*\\)\\s*에.*알맞은",
     "______에.*적절한"]),
   ("short_answer",
    ["다음을.*간단히.*서술하시오",
     ".*을\\(를\\).*쓰시오",
     ".*답하시오\\.",
     ".*단답.*서술"]),
   ("essay",
    ["다음을.*자세히.*설명하시오",
     ".*논술하시오",
     ".*서술하시오\\.",
     ".*기술하시오\\."]),
   ("calculation",
    ["다음을.*계산하시오",
     ".*값을.*구하시오",
     ".*계산.*과정.*쓰시오",
     "\\d+.*\\+.*\\d+.*=.*\\?"]),
   ("sequence",
    ["다음.*순서.*배열",
     "올바른.*순서는\\?",
     "가.*나.*다.*라.*순서"]),
   ("diagram_matching",
    ["다음.*도식.*그림.*연결",
     "플로차트.*프로세스.*연결",
     "다이어그램.*흐름.*연결",
     "\\(가\\).*\\(나\\).*\\(다\\).*연결",
     "과정을.*표현한.*것.*연결",
     "인스펙션.*과정.*표현.*것"]),
   ("flowchart_analysis",
    ["다음.*흐름도.*분석",
     "플로차트.*해석",
     "프로세스.*다이어그램.*분석",
     "순서도.*단계.*분석"]),
   ("concept_definition",
    ["개발.*영역.*결정하는.*요소",
     "소프트웨어.*개발.*영역",
     "시스템.*구성요소.*정의",
     ".*정의.*개념.*설명"]),
   ("matching",
    ["다음을.*연결하시오",
     ".*과.*를.*짝지으시오",
     "가.*와.*나.*를.*연결",
     "\\(가\\).*-.*ㄱ",
     "\\(나\\).*-.*ㄴ"]),
   ("case_analysis",
    ["다음.*사례.*분석",
     "상황.*에서.*해결방안",
     "문제상황.*대처방안"])]

/-- `special_keywords` of `analyze_question_types`
(scripts/question_generator_gpt4o.py lines 281-287). -/
def special_keywords : List (String × List String) :=
  [("tree_analysis", ["트리", "Fan-In", "Fan-Out", "노드", "그래프"]),
   ("code_execution", ["Java", "public", "class", "main", "코드", "실행", "결과"]),
   ("algorithm_analysis", ["알고리즘", "복잡도", "Big-O", "시간복잡도"]),
   ("data_structure", ["스택", "큐", "배열", "리스트", "자료구조"]),
   ("diagram_matching", ["그림", "도식", "차트", "흐름도", "플로차트", "다이어그램"])]

/-- Sum of `len(re.findall(p, text, re.IGNORECASE))` over one category's
patterns. -/
def patCount (text : String) (pats : List String) : ℕ :=
  (pats.map (fun p => RegEng.findallCount p text)).sum

/-- The `+2`-per-present-keyword bonus of the special keyword pass. -/
def keywordBonus (text k : String) : ℕ :=
  2 * (((special_keywords.lookup k).getD []).countP
        (fun w => PyStr.containsSub w.data text.data))

/-- `type_counts` after both accumulation passes, in the dict's key order. -/
def type_counts (text : String) : List (String × ℕ) :=
  question_patterns.map fun kv => (kv.1, patCount text kv.2 + keywordBonus text kv.1)

/-- `total_matches`: every increment of the two passes lands in both
`type_counts` and the running total, so the total is the sum of the counts. -/
def total_matches (text : String) : ℕ :=
  ((type_counts text).map Prod.snd).sum

def type_ratios (text : String) : List (String × ℚ) :=
  (type_counts text).map fun kv => (kv.1, (kv.2 : ℚ) / (total_matches text : ℚ))

/-- `adjusted_ratios` after the 3%-floor pass. -/
def adjusted_ratios (text : String) : List (String × ℚ) :=
  (type_ratios text).map fun kv => (kv.1, max kv.2 ((3 : ℚ)/100))

def totalAdjusted (text : String) : ℚ :=
  ((adjusted_ratios text).map Prod.snd).sum

/-- `QuestionGenerator.analyze_question_types` of
scripts/question_generator_gpt4o.py (lines 269-311): pattern findall counts
plus keyword bonuses; zero total returns the fixed three-category fallback;
otherwise ratios are floored at 0.03 and renormalized when their sum is
positive. -/
def analyze_question_types (text : String) : List (String × ℚ) :=
  if total_matches text = 0 then
    [("multiple_choice", (8 : ℚ)/10), ("tree_analysis", (1 : ℚ)/10), ("code_execution", (1 : ℚ)/10)]
  else if 0 < totalAdjusted text then
    (adjusted_ratios text).map fun kv => (kv.1, kv.2 / totalAdjusted text)
  else adjusted_ratios text

/-- `distribute_questions` of scripts/question_generator_gpt4o.py
(lines 313-329) is written line-for-line identically to the one of
scripts/question_generator.py embedded as `QGen.distribute_questions`. -/
def distribute_questions : ℤ → List (String × ℚ) → List (String × ℤ) :=
  QGen.distribute_questions

end Gpt4o

/-- C2 (counterexample): on the empty string the extended variant's grand
total is zero, yet its `analyze_question_types` returns a three-category
fallback, not a single default category of weight 1.0. -/
theorem c2_counterexample :
    Gpt4o.total_matches "" = 0 ∧
    (Gpt4o.analyze_question_types "").length = 3 ∧
    Gpt4o.analyze_question_types "" ≠ [("multiple_choice", 1)] := by
  refine ⟨by with_unfolding_all decide, by with_unfolding_all decide, by with_unfolding_all decide⟩

/-- C2 (amended): when the grand keyword total is zero, the simple variant's
`analyze_question_types` returns exactly the single default bucket with
weight 1.0, while the extended variant returns its fixed fallback of three
categories (multiple_choice 0.8, tree_analysis 0.1, code_execution 0.1). -/
theorem c2_degenerate_amended (t1 t2 : String) (h1 : QGen.keywordTotal t1 = 0)
    (h2 : Gpt4o.total_matches t2 = 0) :
    QGen.analyze_question_types t1 = [("multiple_choice", 1)] ∧
    Gpt4o.analyze_question_types t2 =
      [("multiple_choice", (8 : ℚ)/10), ("tree_analysis", (1 : ℚ)/10),
       ("code_execution", (1 : ℚ)/10)] := by
  constructor
  · simp [QGen.analyze_question_types, h1]
  · simp [Gpt4o.analyze_question_types, h2]

theorem c2_degenerate_witness :
    QGen.analyze_question_types "" = [("multiple_choice", 1)] ∧
    Gpt4o.analyze_question_types "" =
      [("multiple_choice", (8 : ℚ)/10), ("tree_analysis", (1 : ℚ)/10),
       ("code_execution", (1 : ℚ)/10)] :=
  c2_degenerate_amended "" "" (by with_unfolding_all decide) (by with_unfolding_all decide)

/-- C3 (counterexample): the simple variant's classifier output does not sum
to 1.0: on the text "트리" a single keyword hit gives the matching category
ratio 1.0 while the 0.05 floor lifts the other four categories, so the
weights sum to 1.2. -/
theorem c3_counterexample :
    ((QGen.analyze_question_types "트리").map Prod.snd).sum = (6 : ℚ)/5 ∧
    ((6 : ℚ)/5) ≠ (1 : ℚ) := by
  refine ⟨by with_unfolding_all decide, by with_unfolding_all decide⟩

theorem sum_map_div (l : List (String × ℚ)) (S : ℚ) :
    ((l.map fun kv => (kv.1, kv.2 / S)).map Prod.snd).sum = ((l.map Prod.snd).sum) / S := by
  induction l with
  | nil => simp
  | cons a t ih =>
    simp only [List.map_cons, List.sum_cons, ih]
    rw [div_add_div_same]

theorem adjusted_all_ge (text : String) :
    ∀ x ∈ (Gpt4o.adjusted_ratios text).map Prod.snd, (3 : ℚ)/100 ≤ x := by
  intro x hx
  simp only [Gpt4o.adjusted_ratios, List.map_map, List.mem_map] at hx
  obtain ⟨kv, _, rfl⟩ := hx
  exact le_max_right _ _

theorem adjusted_snd_ne_nil (text : String) :
    (Gpt4o.adjusted_ratios text).map Prod.snd ≠ [] := by
  have hlen : ((Gpt4o.adjusted_ratios text).map Prod.snd).length = 15 := by
    simp [Gpt4o.adjusted_ratios, Gpt4o.type_ratios, Gpt4o.type_counts, Gpt4o.question_patterns]
  intro h
  rw [h] at hlen
  simp at hlen

theorem totalAdjusted_pos (text : String) : 0 < Gpt4o.totalAdjusted text := by
  unfold Gpt4o.totalAdjusted
  refine List.sum_pos _ ?_ (adjusted_snd_ne_nil text)
  intro x hx
  exact lt_of_lt_of_le (by norm_num) (adjusted_all_ge text x hx)

/-- C3 (amended): in exact arithmetic the extended variant's classifier
output always sums to exactly 1.0 (its fallback sums to 1, and otherwise the
0.03-floored ratios are renormalized); the simple variant applies its 0.05
floor without renormalizing, so its output need not sum to 1. -/
theorem c3_sum_amended (text : String) :
    ((Gpt4o.analyze_question_types text).map Prod.snd).sum = 1 := by
  by_cases h0 : Gpt4o.total_matches text = 0
  · simp [Gpt4o.analyze_question_types, h0]
    norm_num
  · have hpos := totalAdjusted_pos text
    simp only [Gpt4o.analyze_question_types, if_neg h0, if_pos hpos]
    rw [sum_map_div]
    exact div_self (ne_of_gt hpos)

/-- C10: whenever the simple variant's grand keyword total is nonzero, its
`analyze_question_types` returns exactly the five fixed analysis categories
in order, the default bucket `multiple_choice` is not among them, and every
returned weight is at least 0.05. -/
theorem c10_simple_classifier (text : String) (h : QGen.keywordTotal text ≠ 0) :
    ((QGen.analyze_question_types text).map Prod.fst =
      ["tree_analysis", "code_execution", "algorithm_analysis",
       "data_structure", "diagram_matching"]) ∧
    "multiple_choice" ∉ (QGen.analyze_question_types text).map Prod.fst ∧
    ∀ p ∈ QGen.analyze_question_types text, (5 : ℚ)/100 ≤ p.2 := by
  have hkeys : (QGen.analyze_question_types text).map Prod.fst =
      ["tree_analysis", "code_execution", "algorithm_analysis",
       "data_structure", "diagram_matching"] := by
    simp [QGen.analyze_question_types, h, QGen.keys]
  refine ⟨hkeys, ?_, ?_⟩
  · rw [hkeys]
    decide
  · intro p hp
    simp only [QGen.analyze_question_types, if_neg h, List.mem_map] at hp
    obtain ⟨kv, _, rfl⟩ := hp
    exact le_max_right _ _

theorem c10_witness :
    (QGen.analyze_question_types "트리").map Prod.fst =
      ["tree_analysis", "code_execution", "algorithm_analysis",
       "data_structure", "diagram_matching"] :=
  (c10_simple_classifier "트리" (by with_unfolding_all decide)).1

namespace QGen

/-- `[A-D]` under IGNORECASE. -/
def isLetterAD (c : Char) : Bool :=
  let l := c.toLower
  'a' ≤ l && l ≤ 'd'

/-- The circled-digit range `[①-⑳]` (U+2460 to U+2473). -/
def isCircled (c : Char) : Bool :=
  0x2460 ≤ c.toNat && c.toNat ≤ 0x2473

/-- First alternative of CHOICE_PREFIX_RE, `[A-D]\s*[\)\.\s]`: a letter, then
a greedy whitespace run, then one `)`, `.` or whitespace character (the
backtracked run's last character when nothing else follows). -/
def matchAlt1 : List Char → Option Nat
  | [] => none
  | c :: r =>
    if isLetterAD c then
      let k := (r.takeWhile PyStr.pyWS).length
      match r.drop k with
      | d :: _ =>
        if d = ')' ∨ d = '.' then some (1 + k + 1)
        else if 1 ≤ k then some (1 + k) else none
      | [] => if 1 ≤ k then some (1 + k) else none
    else none

/-- Second alternative, `[①-⑳]`. -/
def matchAlt2 : List Char → Option Nat
  | [] => none
  | c :: _ => if isCircled c then some 1 else none

/-- One greedy attempt of `\d{1,2}\)?[\.\)]` with `nd` digits consumed:
prefers to consume a closing parenthesis, backtracking it when the class
character would otherwise have nothing to match. -/
def alt3Try (p : Nat) (s1 : List Char) (nd : Nat) : Option Nat :=
  if 1 ≤ nd ∧ nd ≤ (s1.takeWhile Char.isDigit).length then
    match s1.drop nd with
    | ')' :: tail =>
      match tail with
      | d :: _ => if d = '.' ∨ d = ')' then some (p + nd + 2) else some (p + nd + 1)
      | [] => some (p + nd + 1)
    | '.' :: _ => some (p + nd + 1)
    | _ => none
  else none

/-- Third alternative, `(?:\(?\d{1,2}\)?[\.\)])`: optional opening
parenthesis, one or two digits (two tried first), then the
optional-parenthesis/class tail. -/
def matchAlt3 : List Char → Option Nat
  | '(' :: r => (alt3Try 1 r 2).orElse (fun _ => alt3Try 1 r 1)
  | s => (alt3Try 0 s 2).orElse (fun _ => alt3Try 0 s 1)

/-- Match of CHOICE_PREFIX_RE (scripts/question_generator.py lines 20-23)
at the start of the string: leading `\s*`, the first alternative that
matches, then trailing `\s*`; returns the consumed length.  Anchored by `^`
without MULTILINE, the regex can only ever match at position 0, so `re.sub`
performs at most this one replacement. -/
def matchChoice (s : List Char) : Option Nat :=
  let w := (s.takeWhile PyStr.pyWS).length
  let r := s.drop w
  match (matchAlt1 r).orElse (fun _ => (matchAlt2 r).orElse (fun _ => matchAlt3 r)) with
  | some a => some (w + a + (((r.drop a).takeWhile PyStr.pyWS).length))
  | none => none

/-- `strip_choice_prefix` of scripts/question_generator.py (lines 25-28),
renamed: `CHOICE_PREFIX_RE.sub("", s).strip()`. -/
def strip_choice_marker (s : String) : String :=
  match matchChoice s.data with
  | some k => String.mk (PyStr.pyStrip (s.data.drop k))
  | none => String.mk (PyStr.pyStrip s.data)

/-- Search for a token pattern at any position (re.search truthiness). -/
def searchStrRe (pat : String) (l : List Char) : Bool :=
  RegEng.searchRe (RegEng.parsePat pat.data) l

/-- Search for `\bW\b` where `W` consists of word characters. -/
def searchWord (w : List Char) : Option Char → List Char → Bool
  | _, [] => false
  | prev, s@(c :: r) =>
    ((match prev with | none => true | some p => !PyStr.isWordChar p) &&
      w.isPrefixOf s &&
      (match s.drop w.length with | [] => true | d :: _ => !PyStr.isWordChar d)) ||
    searchWord w (some c) r

/-- Search for `\b` followed by a token pattern whose first character is a
word character. -/
def searchBound (ts : List RegEng.RTok) : Option Char → List Char → Bool
  | _, [] => false
  | prev, s@(c :: r) =>
    ((match prev with | none => true | some p => !PyStr.isWordChar p) &&
      (RegEng.reMatch ts s).isSome) ||
    searchBound ts (some c) r

/-- `guess_lang` of scripts/question_generator.py (lines 30-41): lower-case
the code and guess java, sql, python, c, or the empty tag. -/
def guess_lang (code : List Char) : List Char :=
  let c := code.map PyStr.lowCh
  if PyStr.containsSub "public class".data c || PyStr.containsSub "static void main".data c then
    "java".data
  else if searchStrRe "create\\s+table" c || searchStrRe "select\\s+.+\\s+from" c then
    "sql".data
  else if searchWord "def".data none c || searchWord "import".data none c then
    "python".data
  else if searchStrRe "#include\\s*<" c || searchStrRe "int\\s+main\\s*\\(" c then
    "c".data
  else []

/-- The `code_hint` regex of `postprocess_questions`
(scripts/question_generator.py lines 161-164), IGNORECASE: realized by
lower-casing the body and the (lower-case) alternatives. -/
def code_hint (body : List Char) : Bool :=
  let c := body.map PyStr.lowCh
  searchStrRe "public\\s+class" c || searchStrRe "static\\s+void\\s+main" c ||
  searchBound (RegEng.parsePat "for\\s*\\(".data) none c ||
  searchBound (RegEng.parsePat "if\\s*\\(".data) none c ||
  searchBound (RegEng.parsePat "while\\s*\\(".data) none c ||
  searchStrRe "#include\\s*<" c

/-- A question record as `postprocess_questions` sees it: the three fields
the pass touches, each possibly absent as in a Python dict, and the
remaining key-value pairs carried opaquely. -/
structure QuestionRecord where
  question : Option String
  options : Option (List String)
  explanation : Option String
  extra : List (String × String)
deriving DecidableEq

/-- Python `str.replace("\r\n", "\n")` (left to right, no rescan). -/
def replaceCRLF : List Char → List Char
  | '\r' :: '\n' :: t => '\n' :: replaceCRLF t
  | c :: t => c :: replaceCRLF t
  | [] => []

/-- Position of the last newline in a character list, if any. -/
def lastNlPos : List Char → Option Nat
  | [] => none
  | c :: t =>
    match lastNlPos t with
    | some j => some (j + 1)
    | none => if c = '\n' then some 0 else none

/-- Match of `\s+\n` at the start of the string: the greedy whitespace run
must contain a newline at an index of at least 1, and backtracking the
greedy `\s+` consumes through the run's last newline. -/
def tryWsNl (s : List Char) : Option Nat :=
  (lastNlPos ((s.takeWhile PyStr.pyWS).drop 1)).map (fun j => j + 2)

/-- `re.sub(r"\s+\n", "\n", e)` as a left-to-right scan. -/
def subWsNl (fuel : Nat) (s : List Char) : List Char :=
  match fuel, s with
  | 0, s => s
  | _ + 1, [] => []
  | f + 1, s@(c :: t) =>
    match tryWsNl s with
    | some k => '\n' :: subWsNl f (s.drop k)
    | none => c :: subWsNl f t

def pySubWsNl (l : List Char) : List Char := subWsNl (l.length + 1) l

/-- The code-fence repair of the `question` field: normalize CRLF, and wrap
the body in a fenced block when it shows code signals and carries no fence
yet. -/
def processBody (q : Option String) : String :=
  let body := replaceCRLF (q.getD "").data
  if code_hint body && !(PyStr.containsSub "```".data body) then
    String.mk ("```".data ++ guess_lang body ++ '\n' :: (body ++ '\n' :: "```".data))
  else String.mk body

/-- The per-record body of `postprocess_questions`
(scripts/question_generator.py lines 166-185): strip option markers when an
option list is present, repair the question's code fence, trim the
explanation when present, and carry every other field unchanged. -/
def processOne (q : QuestionRecord) : QuestionRecord :=
  { question := some (processBody q.question)
    options := q.options.map (List.map strip_choice_marker)
    explanation := q.explanation.map (fun e => String.mk (PyStr.pyStrip (pySubWsNl e.data)))
    extra := q.extra }

/-- `QuestionGenerator.postprocess_questions` of
scripts/question_generator.py (lines 153-187). -/
def postprocess_questions (qs : List QuestionRecord) : List QuestionRecord :=
  qs.map processOne

end QGen

/-- C8: on a record whose options are `["① apple", "B) banana", "(3) cherry"]`
the postprocessor strips all three recognized enumeration markers, returning
the record with options `["apple", "banana", "cherry"]`. -/
theorem c8_prefix_stripping :
    QGen.postprocess_questions
      [⟨some "Q", some ["① apple", "B) banana", "(3) cherry"], none, []⟩] =
      [⟨some "Q", some ["apple", "banana", "cherry"], none, []⟩] := by
  with_unfolding_all decide

/-- C6: for records carrying the required `question` field,
`postprocess_questions` is an order-preserving one-record-per-record map that
adds and removes no field: the opaque remaining fields pass through
unchanged, presence of `options`, `explanation` and `question` is preserved
exactly, and records missing `options` or `explanation` are processed (the
map is total) with those fields left absent. -/
theorem c6_frame (qs : List QGen.QuestionRecord)
    (h : ∀ q ∈ qs, q.question.isSome) :
    (QGen.postprocess_questions qs).length = qs.length ∧
    ∀ (i : ℕ) (r : QGen.QuestionRecord), qs[i]? = some r →
      ∃ r', (QGen.postprocess_questions qs)[i]? = some r' ∧
        r'.extra = r.extra ∧
        r'.options.isSome = r.options.isSome ∧
        r'.explanation.isSome = r.explanation.isSome ∧
        r'.question.isSome = r.question.isSome := by
  constructor
  · simp [QGen.postprocess_questions]
  · intro i r hr
    have hmem : r ∈ qs := List.getElem?_mem hr
    refine ⟨QGen.processOne r, ?_, rfl, ?_, ?_, ?_⟩
    · simp [QGen.postprocess_questions, List.getElem?_map, hr]
    · simp [QGen.processOne]
    · simp [QGen.processOne]
    · simp [QGen.processOne, h r hmem]

def sampleRecord : QGen.QuestionRecord := ⟨some "q", none, none, [("id", "1")]⟩

theorem c6_frame_witness :
    (QGen.postprocess_questions [sampleRecord]).length = [sampleRecord].length :=
  (c6_frame [sampleRecord] (by decide)).1

namespace QGen

/-- Step 0 of `preprocess_text`: `replace("\r\n", "\n").replace("\r", "\n")`. -/
def toLF (l : List Char) : List Char :=
  (replaceCRLF l).map (fun c => if c = '\r' then '\n' else c)

/-- Index of the last newline inside a whitespace run, if any. -/
def lastNlIdx (w : List Char) : Option Nat :=
  match w.reverse.findIdx? (· = '\n') with
  | some ri => some (w.length - 1 - ri)
  | none => none

/-- Match of the page-number pattern `\n?\s*\d+\s*/\s*\d+\s*\n` at the start
of the string (`\n?\s*` consumes the same maximal whitespace run as `\s*`
alone, since `\n` is whitespace); the trailing `\s*\n` backtracks the greedy
run to end at its last newline. -/
def tryPage (s : List Char) : Option Nat :=
  let w1 := s.takeWhile PyStr.pyWS
  let r1 := s.drop w1.length
  let d1 := r1.takeWhile Char.isDigit
  if d1.length = 0 then none else
  let r2 := r1.drop d1.length
  let w2 := r2.takeWhile PyStr.pyWS
  match r2.drop w2.length with
  | '/' :: r4 =>
    let w3 := r4.takeWhile PyStr.pyWS
    let r5 := r4.drop w3.length
    let d2 := r5.takeWhile Char.isDigit
    if d2.length = 0 then none else
    let r6 := r5.drop d2.length
    match lastNlIdx (r6.takeWhile PyStr.pyWS) with
    | some j => some (w1.length + d1.length + w2.length + 1 + w3.length + d2.length + j + 1)
    | none => none
  | _ => none

/-- `re.sub(r"\n?\s*\d+\s*/\s*\d+\s*\n", "\n", text)` as a left-to-right
scan (step 1 of `preprocess_text`). -/
def pageGo (fuel : Nat) (s : List Char) : List Char :=
  match fuel, s with
  | 0, s => s
  | _ + 1, [] => []
  | f + 1, s@(c :: t) =>
    match tryPage s with
    | some k => '\n' :: pageGo f (s.drop k)
    | none => c :: pageGo f t

def pageSub (l : List Char) : List Char := pageGo (l.length + 1) l

/-- `re.sub(r"(\w)-\n(\w)", r"\1\2", text)` (step 2): hyphenated line-wrap
repair; scanning resumes after each replaced match. -/
def hyphenGo (fuel : Nat) (s : List Char) : List Char :=
  match fuel, s with
  | 0, s => s
  | _ + 1, [] => []
  | f + 1, a :: t =>
    match t with
    | '-' :: '\n' :: b :: t2 =>
      if PyStr.isWordChar a && PyStr.isWordChar b then a :: b :: hyphenGo f t2
      else a :: hyphenGo f t
    | _ => a :: hyphenGo f t

def hyphenSub (l : List Char) : List Char := hyphenGo (l.length + 1) l

/-- `re.sub(r"([A-Za-z0-9_])\n\(", r"\1(", text)` (step 2): broken
call-syntax repair; the character class here is ASCII-only. -/
def parenGo (fuel : Nat) (s : List Char) : List Char :=
  match fuel, s with
  | 0, s => s
  | _ + 1, [] => []
  | f + 1, a :: t =>
    match t with
    | '\n' :: '(' :: t2 =>
      if a.isAlphanum || a = '_' then a :: '(' :: parenGo f t2
      else a :: parenGo f t
    | _ => a :: parenGo f t

def parenSub (l : List Char) : List Char := parenGo (l.length + 1) l

/-- The five metadata labels `연산|조건|예시|설명|참고`. -/
def metaLabels : List (List Char) := [['연', '산'], ['조', '건'], ['예', '시'], ['설', '명'], ['참', '고']]

/-- Match of `^(연산|조건|예시|설명|참고)\s*[:：]\s*` at a line start: label,
greedy whitespace (which may cross line breaks), half- or full-width colon,
greedy trailing whitespace. -/
def tryMetaLine (s : List Char) : Option Nat :=
  metaLabels.findSome? fun lab =>
    if lab.isPrefixOf s then
      let r1 := s.drop lab.length
      let w1 := r1.takeWhile PyStr.pyWS
      match r1.drop w1.length with
      | c :: r3 =>
        if c = ':' ∨ c = '：' then
          some (lab.length + w1.length + 1 + (r3.takeWhile PyStr.pyWS).length)
        else none
      | [] => none
    else none

/-- Replacement text `\1: ` for a matched label. -/
def metaRepl (s : List Char) : List Char :=
  (s.take 2) ++ [':', ' ']

/-- `re.sub(rf"^(labels)\s*[:：]\s*", r"\1: ", text, flags=re.MULTILINE)`
(step 3): `^` matches at position 0 and right after each newline of the
original text, which the scanner tracks across consumed matches. -/
def metaLineGo (fuel : Nat) (atStart : Bool) (s : List Char) : List Char :=
  match fuel, s with
  | 0, s => s
  | _ + 1, [] => []
  | f + 1, s@(c :: t) =>
    match (if atStart then tryMetaLine s else none) with
    | some k =>
      metaRepl s ++ metaLineGo f (decide ((s.take k).getLast? = some '\n')) (s.drop k)
    | none => c :: metaLineGo f (decide (c = '\n')) t

def metaLineSub (l : List Char) : List Char := metaLineGo (l.length + 1) true l

/-- Match of `\s+(labels):\s*` at the start of the string: a nonempty
greedy whitespace run immediately followed by a label, a half-width colon
and greedy trailing whitespace. -/
def tryMetaMid (s : List Char) : Option (Nat × List Char) :=
  let w := s.takeWhile PyStr.pyWS
  if w.length = 0 then none else
  let r := s.drop w.length
  metaLabels.findSome? fun lab =>
    if lab.isPrefixOf r then
      match r.drop lab.length with
      | ':' :: r2 => some (w.length + lab.length + 1 + (r2.takeWhile PyStr.pyWS).length, lab)
      | _ => none
    else none

/-- `re.sub(rf"\s+(labels):\s*", r"\n\1: ", text)` (step 3). -/
def metaMidGo (fuel : Nat) (s : List Char) : List Char :=
  match fuel, s with
  | 0, s => s
  | _ + 1, [] => []
  | f + 1, s@(c :: t) =>
    match tryMetaMid s with
    | some (k, lab) => '\n' :: (lab ++ ':' :: ' ' :: metaMidGo f (s.drop k))
    | none => c :: metaMidGo f t

def metaMidSub (l : List Char) : List Char := metaMidGo (l.length + 1) l

/-- Python `text.split("\n")`. -/
def splitNl : List Char → List (List Char)
  | [] => [[]]
  | '\n' :: t => [] :: splitNl t
  | c :: t =>
    match splitNl t with
    | h :: rest => (c :: h) :: rest
    | [] => [[c]]

/-- Last non-whitespace character, for the `;\s*$` and `\{\s*$` endings of
`code_start_re`. -/
def lastNonWs (l : List Char) : Option Char :=
  match l.reverse.dropWhile PyStr.pyWS with
  | x :: _ => some x
  | [] => none

/-- `code_start_re.search(line)` (scripts/question_generator.py
lines 108-110), case-sensitive. -/
def code_start (line : List Char) : Bool :=
  searchStrRe "public\\s+class" line || searchStrRe "static\\s+void\\s+main" line ||
  searchStrRe "#include\\s*<" line ||
  (RegEng.reMatch (RegEng.parsePat "\\s*for\\s*\\(".data) line).isSome ||
  (RegEng.reMatch (RegEng.parsePat "\\s*if\\s*\\(".data) line).isSome ||
  (RegEng.reMatch (RegEng.parsePat "\\s*while\\s*\\(".data) line).isSome ||
  (lastNonWs line == some ';') || (lastNonWs line == some '\x7b')

/-- `line.strip().endswith(suf)`. -/
def stripEndsWith (l : List Char) (suf : List Char) : Bool :=
  suf.reverse.isPrefixOf (PyStr.pyStrip l).reverse

/-- `re.match(rf"^(labels):", line)` truthiness. -/
def metaLineMatch (line : List Char) : Bool :=
  metaLabels.any fun lab =>
    lab.isPrefixOf line &&
    (match line.drop lab.length with | ':' :: _ => true | _ => false)

/-- The fenced block `flush_code` emits: f-string
`"```" + lang + "\n" + block + "\n```" + "\n"` with the buffered lines
joined by newlines and stripped of outer newlines. -/
def fenceOf (buf : List (List Char)) : List Char :=
  let block := PyStr.stripNl (List.intercalate ['\n'] buf)
  "```".data ++ guess_lang block ++ '\n' :: (block ++ '\n' :: ("```".data ++ ['\n']))

/-- `flush_code()`: append the fence when the buffer is nonempty. -/
def flushCode (buf : List (List Char)) (out : List (List Char)) : List (List Char) :=
  if buf = [] then out else out ++ [fenceOf buf]

/-- The line-by-line code-block state machine of `preprocess_text`
(scripts/question_generator.py lines 93-141). -/
def codeScan : List (List Char) → Bool → List (List Char) → List (List Char) → List (List Char)
  | [], _, buf, out => flushCode buf out
  | ln :: rest, inCode, buf, out =>
    let line := PyStr.dropTrailWS ln
    if code_start line || stripEndsWith line ['\x7b'] || stripEndsWith line ['\x7d', ';'] then
      codeScan rest true (buf ++ [line]) out
    else if inCode &&
        (stripEndsWith line [';'] || stripEndsWith line ['\x7d'] || stripEndsWith line ['\x7b']) then
      codeScan rest inCode (buf ++ [line]) out
    else if metaLineMatch line then
      codeScan rest false [] (flushCode buf out ++ [line])
    else if inCode then
      codeScan rest false [] (flushCode buf out ++ [line])
    else
      codeScan rest inCode buf (out ++ [line])

/-- Step 4 of `preprocess_text`: split into lines, run the state machine,
rejoin with newlines. -/
def codePass (text : List Char) : List Char :=
  List.intercalate ['\n'] (codeScan (splitNl text) false [] [])

/-- `re.sub(r"[ \t]+\n", "\n", text)` (step 5). -/
def trailWsGo (fuel : Nat) (s : List Char) : List Char :=
  match fuel, s with
  | 0, s => s
  | _ + 1, [] => []
  | f + 1, s@(c :: t) =>
    let w := s.takeWhile (fun d => d = ' ' || d = '\t')
    if w.length ≠ 0 && (match s.drop w.length with | '\n' :: _ => true | _ => false) then
      '\n' :: trailWsGo f (s.drop (w.length + 1))
    else c :: trailWsGo f t

def trailWsSub (l : List Char) : List Char := trailWsGo (l.length + 1) l

/-- `re.sub(r"\n{3,}", "\n\n", text)` (steps 1 and 5): each maximal newline
run of length at least 3 collapses to exactly two newlines. -/
def collapseNl (fuel : Nat) (s : List Char) : List Char :=
  match fuel, s with
  | 0, s => s
  | _ + 1, [] => []
  | f + 1, c :: t =>
    if c = '\n' then
      (if 3 ≤ 1 + (t.takeWhile (· = '\n')).length then ['\n', '\n']
       else List.replicate (1 + (t.takeWhile (· = '\n')).length) '\n') ++
      collapseNl f (t.dropWhile (· = '\n'))
    else c :: collapseNl f t

def collapseNlSub (l : List Char) : List Char := collapseNl (l.length + 1) l

/-- `QuestionGenerator.preprocess_text` of scripts/question_generator.py
(lines 59-148): empty input returns the empty string, otherwise the steps
run in source order and the result is stripped. -/
def preprocess_text (raw : String) : String :=
  if raw = "" then ""
  else
    String.mk (PyStr.pyStrip (collapseNlSub (trailWsSub (codePass (metaMidSub (metaLineSub
      (parenSub (hyphenSub (collapseNlSub (pageSub (toLF raw.data)))))))))))

end QGen

/-- C4: `preprocess_text` is not idempotent: on `"public class A {"` the
first application wraps the line in a fenced java block, and the second
application re-detects the fenced body as code and wraps it again. -/
theorem c4_normalizer_not_idempotent :
    QGen.preprocess_text "public class A \x7b" = "```java\npublic class A \x7b\n```" ∧
    QGen.preprocess_text (QGen.preprocess_text "public class A \x7b") ≠
      QGen.preprocess_text "public class A \x7b" := by
  refine ⟨by with_unfolding_all decide, by with_unfolding_all decide⟩

/-- Scanner for a run of three consecutive newline characters. -/
def hasNNN : List Char → Bool
  | [] => false
  | c1 :: t =>
    (match t with
     | c2 :: c3 :: _ => c1 = '\n' && c2 = '\n' && c3 = '\n'
     | _ => false) || hasNNN t

theorem hasNNN_cons_eq (c1 c2 c3 : Char) (t : List Char) :
    hasNNN (c1 :: c2 :: c3 :: t) =
      ((decide (c1 = '\n') && decide (c2 = '\n') && decide (c3 = '\n')) ||
        hasNNN (c2 :: c3 :: t)) := rfl

theorem hasNNN_cons_false {c : Char} {l : List Char} (h1 : hasNNN l = false)
    (h2 : c = '\n' → l.take 2 ≠ ['\n', '\n']) : hasNNN (c :: l) = false := by
  cases l with
  | nil => simp [hasNNN]
  | cons c2 t2 =>
    cases t2 with
    | nil =>
      have : hasNNN [c2] = false := h1
      simp [hasNNN]
    | cons c3 t3 =>
      have hne : ¬(c = '\n' ∧ c2 = '\n' ∧ c3 = '\n') := by
        rintro ⟨rfl, rfl, rfl⟩
        exact h2 rfl (by simp)
      rw [hasNNN_cons_eq, h1, Bool.or_false]
      by_cases ha : c = '\n'
      · by_cases hb : c2 = '\n'
        · by_cases hcc : c3 = '\n'
          · exact absurd ⟨ha, hb, hcc⟩ hne
          · simp [hcc]
        · simp [hb]
      · simp [ha]

theorem hasNNN_cons_or (c : Char) (l : List Char) :
    hasNNN (c :: l) =
      ((match l with
        | c2 :: c3 :: _ => decide (c = '\n') && decide (c2 = '\n') && decide (c3 = '\n')
        | _ => false) || hasNNN l) := rfl

theorem hasNNN_cons_true {c : Char} {l : List Char} (h : hasNNN l = true) :
    hasNNN (c :: l) = true := by
  rw [hasNNN_cons_or, h, Bool.or_true]

theorem hasNNN_append_nnn (u v : List Char) :
    hasNNN (u ++ ['\n', '\n', '\n'] ++ v) = true := by
  induction u with
  | nil => simp [hasNNN]
  | cons a u ih => exact hasNNN_cons_true ih

theorem infix_of_hasNNN : ∀ l : List Char, hasNNN l = true → ['\n', '\n', '\n'] <:+: l := by
  intro l
  induction l with
  | nil => simp [hasNNN]
  | cons c t ih =>
    intro h
    rw [hasNNN_cons_or, Bool.or_eq_true] at h
    rcases h with h1 | h2
    · cases t with
      | nil => simp at h1
      | cons c2 t2 =>
        cases t2 with
        | nil => simp at h1
        | cons c3 t3 =>
          simp only [decide_eq_true_eq, Bool.and_eq_true] at h1
          obtain ⟨⟨rfl, rfl⟩, rfl⟩ := h1
          exact ⟨[], t3, rfl⟩
    · exact List.infix_cons (ih h2)

theorem hasNNN_of_infix {l : List Char} (h : ['\n', '\n', '\n'] <:+: l) :
    hasNNN l = true := by
  obtain ⟨u, v, rfl⟩ := h
  exact hasNNN_append_nnn u v

theorem hasNNN_false_of_infix {l' l : List Char} (hinf : l' <:+: l)
    (h : hasNNN l = false) : hasNNN l' = false := by
  by_contra h'
  have ht : hasNNN l' = true := by
    revert h'
    cases hasNNN l' <;> simp
  have := hasNNN_of_infix ((infix_of_hasNNN l' ht).trans hinf)
  rw [h] at this
  exact Bool.false_ne_true this

theorem pyStrip_within (l : List Char) : PyStr.pyStrip l <:+: l := by
  have h1 : l.dropWhile PyStr.pyWS <:+ l := List.dropWhile_suffix PyStr.pyWS
  have h2 : PyStr.dropTrailWS (l.dropWhile PyStr.pyWS) <+: l.dropWhile PyStr.pyWS := by
    unfold PyStr.dropTrailWS
    have h3 : (l.dropWhile PyStr.pyWS).reverse.dropWhile PyStr.pyWS <:+
        (l.dropWhile PyStr.pyWS).reverse := List.dropWhile_suffix PyStr.pyWS
    have h4 := List.reverse_prefix.mpr h3
    simpa using h4
  exact h2.isInfix.trans h1.isInfix

theorem dropWhile_head_not (p : Char → Bool) :
    ∀ (l : List Char) (a : Char), (l.dropWhile p).head? = some a → p a = false := by
  intro l
  induction l with
  | nil => intro a h; simp [List.dropWhile] at h
  | cons c t ih =>
    intro a h
    by_cases hc : p c
    · rw [List.dropWhile_cons_of_pos hc] at h
      exact ih a h
    · rw [List.dropWhile_cons_of_neg hc] at h
      simp only [List.head?_cons, Option.some.injEq] at h
      subst h
      exact Bool.eq_false_iff.mpr hc

theorem collapseNl_head (f : Nat) (s : List Char) :
    (QGen.collapseNl f s).head? = s.head? := by
  cases f with
  | zero => rfl
  | succ f =>
    cases s with
    | nil => rfl
    | cons c t =>
      by_cases hc : c = '\n'
      · subst hc
        simp only [QGen.collapseNl, if_pos rfl]
        by_cases h3 : 3 ≤ 1 + (t.takeWhile (· = '\n')).length
        · simp [h3]
        · rw [if_neg h3, Nat.add_comm, List.replicate_succ]
          simp
      · simp [QGen.collapseNl, hc]

theorem take_one_head {l : List Char} {a : Char} (h : l.take 1 = [a]) :
    l.head? = some a := by
  cases l with
  | nil => simp at h
  | cons c t =>
    simp only [List.take_succ_cons, List.take_zero, List.cons.injEq] at h
    simp [h.1]

theorem take_two_head {l : List Char} (h : l.take 2 = ['\n', '\n']) :
    l.head? = some '\n' := by
  cases l with
  | nil => simp at h
  | cons a t =>
    simp only [List.take_succ_cons, List.cons.injEq] at h
    simp [h.1]

theorem collapseNl_no_triple :
    ∀ (f : Nat) (s : List Char), s.length < f → hasNNN (QGen.collapseNl f s) = false := by
  intro f
  induction f with
  | zero => intro s h; simp at h
  | succ f ih =>
    intro s hlen
    cases s with
    | nil => simp [QGen.collapseNl, hasNNN]
    | cons c t =>
      have htlen : t.length < f := by
        simpa [Nat.succ_lt_succ_iff] using hlen
      by_cases hc : c = '\n'
      · subst hc
        simp only [QGen.collapseNl, if_pos rfl]
        have hrest_len : (t.dropWhile (· = '\n')).length < f :=
          lt_of_le_of_lt (List.dropWhile_suffix _).length_le htlen
        have hrec := ih _ hrest_len
        have hhead : (QGen.collapseNl f (t.dropWhile (· = '\n'))).head? ≠ some '\n' := by
          rw [collapseNl_head]
          intro hh
          have := dropWhile_head_not (· = '\n') _ _ hh
          simp at this
        have hone : hasNNN ('\n' :: QGen.collapseNl f (t.dropWhile (· = '\n'))) = false := by
          apply hasNNN_cons_false hrec
          intro _ htake
          exact hhead (take_two_head htake)
        have htwo : hasNNN ('\n' :: '\n' :: QGen.collapseNl f (t.dropWhile (· = '\n'))) = false := by
          apply hasNNN_cons_false hone
          intro _ htake
          simp only [List.take_succ_cons, List.cons.injEq, true_and] at htake
          exact hhead (take_one_head htake)
        by_cases h3 : 3 ≤ 1 + (t.takeWhile (· = '\n')).length
        · simpa [h3] using htwo
        · have hk : 1 + (t.takeWhile (· = '\n')).length = 1 ∨
              1 + (t.takeWhile (· = '\n')).length = 2 := by omega
          rw [if_neg h3]
          rcases hk with hk | hk <;> rw [hk]
          · simpa [List.replicate] using hone
          · simpa [List.replicate] using htwo
      · simp only [QGen.collapseNl, if_neg hc]
        exact hasNNN_cons_false (ih t htlen) (fun h => absurd h hc)

/-- C9: for every input string, the output of `preprocess_text` never
contains three or more consecutive newline characters: the final
`re.sub(r"\n{3,}", "\n\n", ...)` leaves no such run and the final `strip()`
only removes an outer margin. -/
theorem c9_no_blank_run (raw : String) :
    ¬ (['\n', '\n', '\n'] <:+: (QGen.preprocess_text raw).data) := by
  unfold QGen.preprocess_text
  by_cases h : raw = ""
  · simp [h]
  · simp only [if_neg h]
    intro hinf
    have hfalse : hasNNN (PyStr.pyStrip (QGen.collapseNlSub (QGen.trailWsSub (QGen.codePass
        (QGen.metaMidSub (QGen.metaLineSub (QGen.parenSub (QGen.hyphenSub (QGen.collapseNlSub
          (QGen.pageSub (QGen.toLF raw.data))))))))))) = false := by
      apply hasNNN_false_of_infix (pyStrip_within _)
      exact collapseNl_no_triple _ _ (Nat.lt_succ_self _)
    have htrue := hasNNN_of_infix hinf
    rw [hfalse] at htrue
    exact Bool.false_ne_true htrue

/-- C5 (counterexample): applying `postprocess_questions` twice differs from
once: an option carrying two stacked enumeration markers, `"1. 2. x"`, is
stripped to `"2. x"` by the first pass and to `"x"` by the second, because
the anchored marker regex removes one leading marker per application. -/
theorem c5_counterexample :
    QGen.postprocess_questions (QGen.postprocess_questions
      [⟨some "", some ["1. 2. x"], none, []⟩]) ≠
    QGen.postprocess_questions [⟨some "", some ["1. 2. x"], none, []⟩] := by
  with_unfolding_all decide

theorem lastNlPos_none : ∀ {l : List Char}, QGen.lastNlPos l = none → '\n' ∉ l := by
  intro l
  induction l with
  | nil => intro _; simp
  | cons c t ih =>
    intro h hmem
    simp only [QGen.lastNlPos] at h
    cases hl : QGen.lastNlPos t with
    | some j => rw [hl] at h; simp at h
    | none =>
      rw [hl] at h
      by_cases hc : c = '\n'
      · rw [if_pos hc] at h; simp at h
      · rcases List.mem_cons.mp hmem with h' | h'
        · exact hc h'.symm
        · exact ih hl h'

theorem lastNlPos_eq_none : ∀ {l : List Char}, '\n' ∉ l → QGen.lastNlPos l = none := by
  intro l
  induction l with
  | nil => intro _; rfl
  | cons c t ih =>
    intro h
    have hc : c ≠ '\n' := fun hc => h (hc ▸ List.mem_cons_self c t)
    have ht : '\n' ∉ t := fun hm => h (List.mem_cons_of_mem c hm)
    simp only [QGen.lastNlPos, ih ht]
    rw [if_neg hc]

theorem lastNlPos_mem : ∀ {l : List Char} {j : Nat}, QGen.lastNlPos l = some j → '\n' ∈ l := by
  intro l
  induction l with
  | nil => intro j h; simp [QGen.lastNlPos] at h
  | cons c t ih =>
    intro j h
    simp only [QGen.lastNlPos] at h
    cases hl : QGen.lastNlPos t with
    | some j' => exact List.mem_cons_of_mem c (ih hl)
    | none =>
      rw [hl] at h
      by_cases hc : c = '\n'
      · exact hc ▸ List.mem_cons_self c t
      · rw [if_neg hc] at h; simp at h

theorem lastNlPos_some : ∀ {l : List Char} {j : Nat}, QGen.lastNlPos l = some j →
    j + 1 ≤ l.length ∧ '\n' ∉ l.drop (j + 1) := by
  intro l
  induction l with
  | nil => intro j h; simp [QGen.lastNlPos] at h
  | cons c t ih =>
    intro j h
    simp only [QGen.lastNlPos] at h
    cases hl : QGen.lastNlPos t with
    | some j' =>
      rw [hl] at h
      simp only [Option.some.injEq] at h
      subst h
      obtain ⟨h1, h2⟩ := ih hl
      refine ⟨by simpa using h1, by simpa using h2⟩
    | none =>
      rw [hl] at h
      by_cases hc : c = '\n'
      · rw [if_pos hc] at h
        simp only [Option.some.injEq] at h
        subst h
        refine ⟨by simp, by simpa using lastNlPos_none hl⟩
      · rw [if_neg hc] at h; simp at h

theorem takeWhile_all_append (p : Char → Bool) (A B : List Char)
    (hA : ∀ a ∈ A, p a = true) : (A ++ B).takeWhile p = A ++ B.takeWhile p := by
  induction A with
  | nil => simp
  | cons a A ih =>
    rw [List.cons_append, List.takeWhile_cons_of_pos (hA a (List.mem_cons_self a A)),
      ih (fun x hx => hA x (List.mem_cons_of_mem a hx)), List.cons_append]

theorem tryWsNl_some {s : List Char} {k : Nat} (h : QGen.tryWsNl s = some k) :
    2 ≤ k ∧ k ≤ s.length ∧ (s.drop k).head? ≠ some '\n' ∧ QGen.tryWsNl (s.drop k) = none := by
  unfold QGen.tryWsNl at h
  cases hl : QGen.lastNlPos ((s.takeWhile PyStr.pyWS).drop 1) with
  | none => rw [hl] at h; simp at h
  | some j =>
    rw [hl] at h
    simp only [Option.map_some', Option.some.injEq] at h
    obtain ⟨hj1, hj2⟩ := lastNlPos_some hl
    have hwlen : j + 2 ≤ (s.takeWhile PyStr.pyWS).length := by
      rw [List.length_drop] at hj1
      omega
    have hk2 : 2 ≤ k := by omega
    have hks : k ≤ s.length := by
      have := (List.takeWhile_prefix (l := s) PyStr.pyWS).length_le
      omega
    have hdropw : (s.takeWhile PyStr.pyWS).drop k = ((s.takeWhile PyStr.pyWS).drop 1).drop (j + 1) := by
      rw [List.drop_drop]
      congr 1
      omega
    have hnodrop : '\n' ∉ (s.takeWhile PyStr.pyWS).drop k := by
      rw [hdropw]; exact hj2
    have hsplit : s.drop k = (s.takeWhile PyStr.pyWS).drop k ++ s.dropWhile PyStr.pyWS := by
      conv_lhs => rw [← List.takeWhile_append_dropWhile (p := PyStr.pyWS) (l := s)]
      rw [List.drop_append_of_le_length (by omega)]
    have hv : ∀ a, (s.dropWhile PyStr.pyWS).head? = some a → PyStr.pyWS a = false :=
      dropWhile_head_not PyStr.pyWS s
    have hwkws : ∀ a ∈ (s.takeWhile PyStr.pyWS).drop k, PyStr.pyWS a = true :=
      fun a ha => List.mem_takeWhile_imp (List.mem_of_mem_drop ha)
    refine ⟨hk2, hks, ?_, ?_⟩
    · rw [hsplit]
      cases hwk : (s.takeWhile PyStr.pyWS).drop k with
      | nil =>
        simp only [List.nil_append]
        intro hh
        have := hv '\n' hh
        simp [PyStr.pyWS] at this
      | cons x xs =>
        simp only [List.cons_append, List.head?_cons]
        intro hx
        have hx' : x = '\n' := Option.some.inj hx
        exact hnodrop (by rw [hwk, hx']; exact List.mem_cons_self '\n' xs)
    · unfold QGen.tryWsNl
      have hrun : (s.drop k).takeWhile PyStr.pyWS = (s.takeWhile PyStr.pyWS).drop k := by
        rw [hsplit, takeWhile_all_append _ _ _ hwkws]
        have : (s.dropWhile PyStr.pyWS).takeWhile PyStr.pyWS = [] := by
          cases hd : s.dropWhile PyStr.pyWS with
          | nil => rfl
          | cons x xs =>
            have := hv x (by rw [hd]; rfl)
            rw [List.takeWhile_cons_of_neg (by simp [this])]
        rw [this, List.append_nil]
      rw [hrun, lastNlPos_eq_none (fun hm => hnodrop (List.mem_of_mem_drop hm))]
      rfl

theorem tryWsNl_none_cons {c : Char} {t : List Char} (h : QGen.tryWsNl (c :: t) = none)
    (hc : PyStr.pyWS c = true) : t.head? ≠ some '\n' ∧ QGen.tryWsNl t = none := by
  unfold QGen.tryWsNl at h
  rw [List.takeWhile_cons_of_pos hc] at h
  simp only [List.drop_succ_cons, List.drop_zero, Option.map_eq_none'] at h
  have hnin : '\n' ∉ t.takeWhile PyStr.pyWS := lastNlPos_none h
  constructor
  · intro hh
    cases t with
    | nil => simp at hh
    | cons x xs =>
      simp only [List.head?_cons, Option.some.injEq] at hh
      subst hh
      exact hnin (by
        rw [List.takeWhile_cons_of_pos (by simp [PyStr.pyWS])]
        exact List.mem_cons_self '\n' _)
  · unfold QGen.tryWsNl
    rw [lastNlPos_eq_none (fun hm => hnin (List.mem_of_mem_drop hm))]
    rfl

theorem subWsNl_head (f : Nat) (s : List Char) :
    (QGen.subWsNl f s).head? = some '\n' → s.head? = some '\n' ∨ QGen.tryWsNl s ≠ none := by
  cases f with
  | zero => intro h; exact Or.inl h
  | succ f =>
    cases s with
    | nil => intro h; simp [QGen.subWsNl] at h
    | cons c t =>
      cases ht : QGen.tryWsNl (c :: t) with
      | some k =>
        intro _
        exact Or.inr (by simp [ht])
      | none =>
        intro h
        simp only [QGen.subWsNl, ht, List.head?_cons, Option.some.injEq] at h
        exact Or.inl (by rw [h]; rfl)

/-- Scanner for a whitespace character immediately followed by a newline. -/
def hasWsNl : List Char → Bool
  | [] => false
  | a :: t =>
    (PyStr.pyWS a && (match t with | b :: _ => decide (b = '\n') | _ => false)) || hasWsNl t

theorem hasWsNl_cons_or (a : Char) (t : List Char) :
    hasWsNl (a :: t) =
      ((PyStr.pyWS a && (match t with | b :: _ => decide (b = '\n') | _ => false)) ||
        hasWsNl t) := rfl

theorem hasWsNl_cons_false {a : Char} {t : List Char} (h1 : hasWsNl t = false)
    (h2 : PyStr.pyWS a = true → t.head? ≠ some '\n') : hasWsNl (a :: t) = false := by
  rw [hasWsNl_cons_or, h1, Bool.or_false]
  cases t with
  | nil => simp
  | cons b t' =>
    by_cases hb : b = '\n'
    · subst hb
      cases ha : PyStr.pyWS a with
      | false => simp
      | true => exact (h2 ha rfl).elim
    · simp [hb]

theorem hasWsNl_cons_true {a : Char} {t : List Char} (h : hasWsNl t = true) :
    hasWsNl (a :: t) = true := by
  rw [hasWsNl_cons_or, h, Bool.or_true]

theorem hasWsNl_run : ∀ {s : List Char}, '\n' ∈ (s.takeWhile PyStr.pyWS).drop 1 →
    hasWsNl s = true := by
  intro s
  induction s with
  | nil => intro h; simp at h
  | cons c t ih =>
    intro h
    by_cases hc : PyStr.pyWS c
    · rw [List.takeWhile_cons_of_pos hc, List.drop_succ_cons, List.drop_zero] at h
      cases t with
      | nil => simp at h
      | cons b t' =>
        by_cases hb : PyStr.pyWS b
        · rw [List.takeWhile_cons_of_pos hb] at h
          rcases List.mem_cons.mp h with h' | h'
          · rw [hasWsNl_cons_or]
            simp [hc, ← h']
          · have hmem : '\n' ∈ ((b :: t').takeWhile PyStr.pyWS).drop 1 := by
              rw [List.takeWhile_cons_of_pos hb, List.drop_succ_cons, List.drop_zero]
              exact h'
            exact hasWsNl_cons_true (ih hmem)
        · rw [List.takeWhile_cons_of_neg (by simp [hb])] at h
          simp at h
    · rw [List.takeWhile_cons_of_neg (by simp [hc])] at h
      simp at h

theorem subWsNl_eq_self : ∀ (f : Nat) {l : List Char}, hasWsNl l = false →
    QGen.subWsNl f l = l := by
  intro f
  induction f with
  | zero => intro l _; rfl
  | succ f ih =>
    intro l h
    cases l with
    | nil => rfl
    | cons c t =>
      have htail : hasWsNl t = false := by
        cases hht : hasWsNl t with
        | false => rfl
        | true => rw [hasWsNl_cons_true hht] at h; exact absurd h (by simp)
      have hnone : QGen.tryWsNl (c :: t) = none := by
        cases htw : QGen.tryWsNl (c :: t) with
        | none => rfl
        | some k =>
          exfalso
          unfold QGen.tryWsNl at htw
          cases hl : QGen.lastNlPos (((c :: t).takeWhile PyStr.pyWS).drop 1) with
          | none => rw [hl] at htw; simp at htw
          | some j =>
            have := hasWsNl_run (lastNlPos_mem hl)
            rw [this] at h
            exact absurd h (by simp)
      show QGen.subWsNl (f + 1) (c :: t) = c :: t
      simp only [QGen.subWsNl, hnone]
      rw [ih htail]

theorem subWsNl_no_pair : ∀ (f : Nat) (s : List Char), s.length < f →
    hasWsNl (QGen.subWsNl f s) = false := by
  intro f
  induction f with
  | zero => intro s h; simp at h
  | succ f ih =>
    intro s hlen
    cases s with
    | nil => simp [QGen.subWsNl, hasWsNl]
    | cons c t =>
      cases htw : QGen.tryWsNl (c :: t) with
      | some k =>
        obtain ⟨hk2, hks, hhead, hnone⟩ := tryWsNl_some htw
        simp only [QGen.subWsNl, htw]
        have hdlen : ((c :: t).drop k).length < f := by
          rw [List.length_drop]
          simp only [List.length_cons] at hks hlen ⊢
          omega
        apply hasWsNl_cons_false (ih _ hdlen)
        intro _ hh
        rcases subWsNl_head f _ hh with h' | h'
        · exact hhead h'
        · exact h' hnone
      | none =>
        simp only [QGen.subWsNl, htw]
        have htlen : t.length < f := by
          simpa [Nat.succ_lt_succ_iff] using hlen
        apply hasWsNl_cons_false (ih t htlen)
        intro hcws hh
        obtain ⟨hth, htn⟩ := tryWsNl_none_cons htw hcws
        rcases subWsNl_head f t hh with h' | h'
        · exact hth h'
        · exact h' htn

theorem hasWsNl_infix_pair : ∀ {l : List Char}, hasWsNl l = true →
    ∃ (a : Char) (u v : List Char), PyStr.pyWS a = true ∧ l = u ++ a :: '\n' :: v := by
  intro l
  induction l with
  | nil => intro h; simp [hasWsNl] at h
  | cons c t ih =>
    intro h
    rw [hasWsNl_cons_or, Bool.or_eq_true] at h
    rcases h with h1 | h2
    · rw [Bool.and_eq_true] at h1
      obtain ⟨hc, hm⟩ := h1
      cases t with
      | nil => simp at hm
      | cons b t' =>
        simp only [decide_eq_true_eq] at hm
        subst hm
        exact ⟨c, [], t', hc, rfl⟩
    · obtain ⟨a, u, v, ha, rfl⟩ := ih h2
      exact ⟨a, c :: u, v, ha, rfl⟩

theorem hasWsNl_append_pair (u : List Char) (a : Char) (v : List Char)
    (ha : PyStr.pyWS a = true) : hasWsNl (u ++ a :: '\n' :: v) = true := by
  induction u with
  | nil => rw [List.nil_append, hasWsNl_cons_or]; simp [ha]
  | cons c u ih => exact hasWsNl_cons_true ih

theorem hasWsNl_false_of_infix {l' l : List Char} (hinf : l' <:+: l)
    (h : hasWsNl l = false) : hasWsNl l' = false := by
  cases hw : hasWsNl l' with
  | false => rfl
  | true =>
    obtain ⟨a, u, v, ha, rfl⟩ := hasWsNl_infix_pair hw
    obtain ⟨x, y, rfl⟩ := hinf
    rw [show x ++ (u ++ a :: '\n' :: v) ++ y = (x ++ u) ++ a :: '\n' :: (v ++ y) by simp] at h
    rw [hasWsNl_append_pair _ _ _ ha] at h
    exact absurd h (by simp)

theorem dropWhile_eq_self_of_head {p : Char → Bool} {l : List Char}
    (h : ∀ a, l.head? = some a → p a = false) : l.dropWhile p = l := by
  cases l with
  | nil => rfl
  | cons c t => exact List.dropWhile_cons_of_neg (by simp [h c rfl])

theorem dropTrailWS_prefix (l : List Char) : PyStr.dropTrailWS l <+: l := by
  unfold PyStr.dropTrailWS
  have h3 : l.reverse.dropWhile PyStr.pyWS <:+ l.reverse := List.dropWhile_suffix PyStr.pyWS
  have h4 := List.reverse_prefix.mpr h3
  simpa using h4

theorem pyStrip_head {l : List Char} {a : Char} (h : (PyStr.pyStrip l).head? = some a) :
    PyStr.pyWS a = false := by
  unfold PyStr.pyStrip at h
  obtain ⟨t, ht⟩ := dropTrailWS_prefix (PyStr.dropLeadWS l)
  cases hz : PyStr.dropTrailWS (PyStr.dropLeadWS l) with
  | nil => rw [hz] at h; simp at h
  | cons z zs =>
    rw [hz] at h
    simp only [List.head?_cons, Option.some.injEq] at h
    subst h
    have hy : (PyStr.dropLeadWS l).head? = some z := by
      rw [← ht, hz]
      rfl
    exact dropWhile_head_not PyStr.pyWS l z hy

theorem pyStrip_last {l : List Char} {a : Char}
    (h : (PyStr.pyStrip l).reverse.head? = some a) : PyStr.pyWS a = false := by
  unfold PyStr.pyStrip PyStr.dropTrailWS at h
  rw [List.reverse_reverse] at h
  exact dropWhile_head_not PyStr.pyWS _ a h

theorem pyStrip_idem (l : List Char) : PyStr.pyStrip (PyStr.pyStrip l) = PyStr.pyStrip l := by
  have h1 : PyStr.dropLeadWS (PyStr.pyStrip l) = PyStr.pyStrip l :=
    dropWhile_eq_self_of_head (fun a ha => pyStrip_head ha)
  have h2 : PyStr.dropTrailWS (PyStr.pyStrip l) = PyStr.pyStrip l := by
    unfold PyStr.dropTrailWS
    rw [dropWhile_eq_self_of_head (fun a ha => pyStrip_last ha), List.reverse_reverse]
  have h0 : PyStr.pyStrip (PyStr.pyStrip l) =
      PyStr.dropTrailWS (PyStr.dropLeadWS (PyStr.pyStrip l)) := rfl
  rw [h0, h1, h2]

theorem replaceCRLF_eq_self : ∀ {l : List Char}, '\r' ∉ l → QGen.replaceCRLF l = l := by
  intro l
  induction l with
  | nil => intro _; rfl
  | cons c t ih =>
    intro h
    have hc : ¬ (c = '\r') := fun hc => h (by rw [← hc]; exact List.mem_cons_self c t)
    have ht : '\r' ∉ t := fun hm => h (List.mem_cons_of_mem c hm)
    unfold QGen.replaceCRLF
    split
    · rename_i t2 heq
      exact absurd (List.cons.inj heq).1 hc
    · rename_i c2 t2 hno heq
      obtain ⟨rfl, rfl⟩ : c2 = c ∧ t2 = t := by
        have := List.cons.inj heq
        exact ⟨this.1.symm, this.2.symm⟩
      rw [ih ht]
    · rename_i heq
      simp at heq

theorem guess_lang_no_cr (b : List Char) : '\r' ∉ QGen.guess_lang b := by
  simp only [QGen.guess_lang]
  split_ifs <;> decide

theorem containsSub_of_prefix {pat l : List Char} (h : pat.isPrefixOf l = true) :
    PyStr.containsSub pat l = true := by
  cases l with
  | nil => simpa [PyStr.containsSub] using h
  | cons c t => simp [PyStr.containsSub, h]

theorem processBody_fixed {s : String} (hcr : '\r' ∉ s.data)
    (hfence : PyStr.containsSub "```".data s.data = true) :
    QGen.processBody (some s) = s := by
  unfold QGen.processBody
  show (if (QGen.code_hint (QGen.replaceCRLF s.data) &&
      !(PyStr.containsSub "```".data (QGen.replaceCRLF s.data))) = true then
      String.mk ("```".data ++ QGen.guess_lang (QGen.replaceCRLF s.data) ++
        '\n' :: (QGen.replaceCRLF s.data ++ '\n' :: "```".data))
    else String.mk (QGen.replaceCRLF s.data)) = s
  rw [replaceCRLF_eq_self hcr, hfence]
  simp

theorem processBody_plain {s : String} (hcr : '\r' ∉ s.data)
    (hcond : (QGen.code_hint s.data && !(PyStr.containsSub "```".data s.data)) = false) :
    QGen.processBody (some s) = s := by
  unfold QGen.processBody
  show (if (QGen.code_hint (QGen.replaceCRLF s.data) &&
      !(PyStr.containsSub "```".data (QGen.replaceCRLF s.data))) = true then
      String.mk ("```".data ++ QGen.guess_lang (QGen.replaceCRLF s.data) ++
        '\n' :: (QGen.replaceCRLF s.data ++ '\n' :: "```".data))
    else String.mk (QGen.replaceCRLF s.data)) = s
  rw [replaceCRLF_eq_self hcr, hcond]
  simp

theorem processBody_stable {q : Option String} (h : '\r' ∉ (q.getD "").data) :
    QGen.processBody (some (QGen.processBody q)) = QGen.processBody q := by
  have hX : QGen.replaceCRLF (q.getD "").data = (q.getD "").data := replaceCRLF_eq_self h
  by_cases hcond : (QGen.code_hint (q.getD "").data &&
      !(PyStr.containsSub "```".data (q.getD "").data)) = true
  · have hin : QGen.processBody q =
        String.mk ("```".data ++ QGen.guess_lang (q.getD "").data ++
          '\n' :: ((q.getD "").data ++ '\n' :: "```".data)) := by
      unfold QGen.processBody
      rw [hX, if_pos hcond]
    have hFnocr : '\r' ∉ "```".data ++ QGen.guess_lang (q.getD "").data ++
        '\n' :: ((q.getD "").data ++ '\n' :: "```".data) := by
      intro hm
      simp only [List.mem_append, List.mem_cons] at hm
      rcases hm with (hm | hm) | (hm | (hm | hm))
      · exact absurd hm (by decide)
      · exact guess_lang_no_cr _ hm
      · exact absurd hm (by decide)
      · exact h hm
      · rcases hm with hm | hm
        · exact absurd hm (by decide)
        · exact absurd hm (by decide)
    have hFcont : PyStr.containsSub "```".data ("```".data ++
        QGen.guess_lang (q.getD "").data ++
        '\n' :: ((q.getD "").data ++ '\n' :: "```".data)) = true := by
      apply containsSub_of_prefix
      apply List.isPrefixOf_iff_prefix.mpr
      rw [List.append_assoc]
      exact List.prefix_append _ _
    rw [hin]
    exact processBody_fixed hFnocr hFcont
  · have hcond' : (QGen.code_hint (q.getD "").data &&
        !(PyStr.containsSub "```".data (q.getD "").data)) = false :=
      (Bool.not_eq_true _) ▸ hcond
    have hin : QGen.processBody q = String.mk (q.getD "").data := by
      unfold QGen.processBody
      rw [hX, if_neg hcond]
    rw [hin]
    exact processBody_plain h hcond'

theorem strip_choice_of_none {s : String} (h : QGen.matchChoice s.data = none) :
    QGen.strip_choice_marker s = String.mk (PyStr.pyStrip s.data) := by
  unfold QGen.strip_choice_marker
  rw [h]

theorem strip_choice_stable {o : String}
    (h : QGen.matchChoice (QGen.strip_choice_marker o).data = none) :
    QGen.strip_choice_marker (QGen.strip_choice_marker o) = QGen.strip_choice_marker o := by
  have hform : ∃ z, QGen.strip_choice_marker o = String.mk (PyStr.pyStrip z) := by
    unfold QGen.strip_choice_marker
    cases QGen.matchChoice o.data with
    | some k => exact ⟨_, rfl⟩
    | none => exact ⟨_, rfl⟩
  obtain ⟨z, hz⟩ := hform
  rw [strip_choice_of_none h, hz]
  rw [show (String.mk (PyStr.pyStrip z)).data = PyStr.pyStrip z from rfl, pyStrip_idem]

theorem expl_stable (e : String) :
    String.mk (PyStr.pyStrip (QGen.pySubWsNl
      (String.mk (PyStr.pyStrip (QGen.pySubWsNl e.data))).data)) =
    String.mk (PyStr.pyStrip (QGen.pySubWsNl e.data)) := by
  have hX : hasWsNl (QGen.pySubWsNl e.data) = false :=
    subWsNl_no_pair _ _ (Nat.lt_succ_self _)
  have h1 : hasWsNl (PyStr.pyStrip (QGen.pySubWsNl e.data)) = false :=
    hasWsNl_false_of_infix (pyStrip_within _) hX
  rw [show (String.mk (PyStr.pyStrip (QGen.pySubWsNl e.data))).data =
    PyStr.pyStrip (QGen.pySubWsNl e.data) from rfl]
  rw [show QGen.pySubWsNl (PyStr.pyStrip (QGen.pySubWsNl e.data)) =
    PyStr.pyStrip (QGen.pySubWsNl e.data) from subWsNl_eq_self _ h1]
  rw [pyStrip_idem]

/-- C5 (amended): `postprocess_questions` applied twice equals one
application on every batch whose question fields contain no carriage return
and whose options, after one stripping pass, begin with no further
enumeration marker; in particular a question body wrapped in a fence by the
first pass already contains the fence delimiter and is never wrapped again,
and the explanation trimming is idempotent unconditionally. -/
theorem c5_postprocess_idempotent (qs : List QGen.QuestionRecord)
    (h : ∀ q ∈ qs, ('\r' ∉ (q.question.getD "").data) ∧
      ∀ o ∈ q.options.getD [], QGen.matchChoice (QGen.strip_choice_marker o).data = none) :
    QGen.postprocess_questions (QGen.postprocess_questions qs) =
      QGen.postprocess_questions qs := by
  unfold QGen.postprocess_questions
  rw [List.map_map]
  apply List.map_eq_map_iff.mpr
  intro q hq
  obtain ⟨hcr, hopts⟩ := h q hq
  obtain ⟨qq, qo, qe, qx⟩ := q
  show QGen.processOne (QGen.processOne ⟨qq, qo, qe, qx⟩) = QGen.processOne ⟨qq, qo, qe, qx⟩
  simp only [QGen.processOne, QGen.QuestionRecord.mk.injEq]
  refine ⟨?_, ?_, ?_, trivial⟩
  · exact congrArg some (processBody_stable hcr)
  · cases qo with
    | none => rfl
    | some l =>
      simp only [Option.map_some']
      refine congrArg some ?_
      rw [List.map_map]
      apply List.map_eq_map_iff.mpr
      intro o ho
      exact strip_choice_stable (hopts o ho)
  · cases qe with
    | none => rfl
    | some e =>
      simp only [Option.map_some']
      exact congrArg some (expl_stable e)

def sampleBatch : List QGen.QuestionRecord :=
  [⟨some "hello", some ["① apple"], some "done  \n.", []⟩]

theorem c5_idempotent_witness :
    QGen.postprocess_questions (QGen.postprocess_questions sampleBatch) =
      QGen.postprocess_questions sampleBatch :=
  c5_postprocess_idempotent sampleBatch (by with_unfolding_all decide)
